import Mathlib

/-!
Verification of the `domainer` URL decomposer.

The Go sources define a `URL` record and a function `FromString` that carves a
textual URL into protocol, credentials, host, port, path, query, fragment and
then splits the host into subdomain / domain / TLD with the help of the
external public-suffix lookup `publicsuffix.EffectiveTLDPlusOne`.  The variant
in `main.go` additionally resolves the hostname to an IP address with
`net.LookupIP`; the second copy of the function (the unnamed source file) stops
before resolution.

Strings are embedded as `List Char`.  The two external capabilities are
parameters:
  * `psl : List Char → Option (List Char)` models
    `EffectiveTLDPlusOne(host) -> (registrableDomain, error)`;
  * `res : List Char → Option (List Char)` models `net.LookupIP` returning the
    textual form of the first resolved address, or `none` on error.
-/

/-- One-character split, the behaviour of Go `strings.Split(s, sep)` for a
single-character separator: `splitC c ""` is `[""]`, separators are consumed,
empty fields are kept. -/
def splitC (c : Char) : List Char → List (List Char)
  | [] => [[]]
  | a :: rest =>
    let r := splitC c rest
    if a = c then [] :: r else (a :: r.headD []) :: r.tail

/-- Go `strings.Join(parts, sep)` for a single-character separator. -/
def joinC (c : Char) : List (List Char) → List Char
  | [] => []
  | [x] => x
  | x :: y :: t => x ++ c :: joinC c (y :: t)

/-- Go `strings.TrimPrefix(s, p)`: drop `p` from the front when it is there. -/
def dropPre (p s : List Char) : List Char :=
  if p.isPrefixOf s then s.drop p.length else s

/-- Go `strings.TrimSuffix(s, p)`: drop `p` from the end when it is there. -/
def dropSuf (p s : List Char) : List Char :=
  if p.isSuffixOf s then s.take (s.length - p.length) else s

/-- Numeric value of a list of decimal digits, most significant first. -/
def digitsVal (l : List Char) : Nat :=
  l.foldl (fun n c => n * 10 + (c.toNat - 48)) 0

/-- Go `strconv.Atoi`: an optional sign followed by at least one ASCII decimal
digit, rejected when empty, when a non-digit appears, or when the value falls
outside the 64-bit `int` range (`strconv.ErrRange`). -/
def goAtoi (s : List Char) : Option Int :=
  match s with
  | [] => none
  | c :: rest =>
    let neg : Bool := c = '-'
    let ds := if c = '-' ∨ c = '+' then rest else s
    if ds = [] then none
    else if ds.all (fun d => d.isDigit) then
      let v : Int := if neg then -(digitsVal ds : Int) else (digitsVal ds : Int)
      if -(2 ^ 63) ≤ v ∧ v ≤ 2 ^ 63 - 1 then some v else none
    else none

/-- `Query` from the source: one key-value pair of a URL query string. -/
structure Query where
  key : List Char
  value : List Char
deriving DecidableEq

/-- `URL` from `main.go`: the split of a given domain name. -/
structure URL where
  fullURL : List Char
  protocol : List Char
  subdomain : List Char
  hostname : List Char
  domain : List Char
  tld : List Char
  port : Int
  path : List Char
  query : List Query
  fragment : List Char
  username : List Char
  password : List Char
  ipAddress : List Char
deriving DecidableEq

/-- The `URL` struct of the non-resolving source file: same fields except that
it has no `Hostname` and no `IPAddress`. -/
structure URLnr where
  fullURL : List Char
  protocol : List Char
  subdomain : List Char
  domain : List Char
  tld : List Char
  port : Int
  path : List Char
  query : List Query
  fragment : List Char
  username : List Char
  password : List Char
deriving DecidableEq

/-- The distinguishable failure stages of `FromString`: `strconv.Atoi`,
`publicsuffix.EffectiveTLDPlusOne`, `net.LookupIP`. -/
inductive GoErr where
  | atoiErr
  | pslErr
  | lookupErr
deriving DecidableEq

/-- Protocol extraction: the two sequential `strings.HasPrefix` /
`strings.TrimPrefix` blocks.  Returns `(protocol, remainder)`. -/
def protoSplit (url : List Char) : List Char × List Char :=
  let s1 : List Char × List Char :=
    if List.isPrefixOf ("http://".toList) url then
      ("http".toList, dropPre ("http://".toList) url)
    else ([], url)
  if List.isPrefixOf ("https://".toList) s1.2 then
    ("https".toList, dropPre ("https://".toList) s1.2)
  else s1

/-- Path split: cut at the first `/` (`strings.Index`, `-1` treated as the
length).  Returns `(authority, path-bearing tail)`. -/
def pathSplit (url : List Char) : List Char × List Char :=
  let i := url.findIdx (fun c => c = '/')
  (url.take i, url.drop i)

/-- Credentials split: cut at the first `@` when present, then split the
credentials at their first `:`.  Returns `((username, password), rest)`. -/
def credSplit (url : List Char) : (List Char × List Char) × List Char :=
  match url.findIdx? (fun c => c = '@') with
  | none => (([], []), url)
  | some i =>
    let credentials := url.take i
    let rest := url.drop (i + 1)
    match credentials.findIdx? (fun c => c = ':') with
    | none => ((credentials, []), rest)
    | some j => ((credentials.take j, credentials.drop (j + 1)), rest)

/-- Port split: cut at the first `:` (`-1` treated as the length).  Returns
`(host, port text)`; the port text keeps its leading `:`. -/
def portSplit (url : List Char) : List Char × List Char :=
  let i := url.findIdx (fun c => c = ':')
  (url.take i, url.drop i)

/-- The port conversion: skipped when the port text is empty (port stays `0`),
otherwise the `:` is trimmed and the rest goes through `strconv.Atoi`. -/
def portParse (port : List Char) : Option Int :=
  if port = [] then some 0
  else goAtoi (dropPre [':'] port)

/-- Query split: cut the path at the first `?`.  Returns
`(path, query-and-fragment tail)`; the tail keeps its leading `?`. -/
def querySplit (path : List Char) : List Char × List Char :=
  let i := path.findIdx (fun c => c = '?')
  (path.take i, path.drop i)

/-- Fragment split: cut the query tail at the first `#` and trim the `#` from
the fragment.  Returns `(query string, fragment)`. -/
def fragSplit (query : List Char) : List Char × List Char :=
  let i := query.findIdx (fun c => c = '#')
  (query.take i, dropPre ['#'] (query.drop i))

/-- Query parameter parse: when the query string is non-empty, trim the `?`,
split on `&`, and keep exactly the parts whose split on `=` has exactly two
pieces, appending in order. -/
def queryParse (query : List Char) : List Query :=
  if query = [] then []
  else
    (splitC '&' (dropPre ['?'] query)).foldl
      (fun acc part =>
        match splitC '=' part with
        | [k, v] => acc ++ [⟨k, v⟩]
        | _ => acc) []

/-- Suffix/domain split, given the string returned by the public-suffix lookup
and the host: the TLD is every label of the returned string except the first;
`"." + tld` is trimmed from the host, whose last remaining label is the domain
and whose other labels joined are the subdomain.  Returns
`(tld, domain, subdomain)`.  (On an empty label list Go would panic on the
index `len-1`; `splitC` never returns an empty list, so `getLastD` is safe.) -/
def domainSplit (tldPlusOne url : List Char) : List Char × List Char × List Char :=
  let parts := splitC '.' tldPlusOne
  let tld := joinC '.' parts.tail
  let tldField := if tld = [] then [] else tld
  let url2 := dropSuf ('.' :: tld) url
  let dparts := splitC '.' url2
  (tldField, dparts.getLastD [], joinC '.' dparts.dropLast)

/-- `FromString` of `main.go`: the resolving variant.  Mirrors the Go control
flow: each failing stage returns `(nil, err)`. -/
def fromString (psl res : List Char → Option (List Char)) (url0 : List Char) :
    Option URL × Option GoErr :=
  let pr := protoSplit url0
  let ap := pathSplit pr.2
  let cr := credSplit ap.1
  let hp := portSplit cr.2
  match portParse hp.2 with
  | none => (none, some GoErr.atoiErr)
  | some port =>
    let pq := querySplit ap.2
    let qf := fragSplit pq.2
    match psl hp.1 with
    | none => (none, some GoErr.pslErr)
    | some tpo =>
      let ds := domainSplit tpo hp.1
      match res tpo with
      | none => (none, some GoErr.lookupErr)
      | some ip =>
        (some { fullURL := url0, protocol := pr.1, subdomain := ds.2.2,
                hostname := tpo, domain := ds.2.1, tld := ds.1,
                port := port, path := pq.1, query := queryParse qf.1,
                fragment := qf.2, username := cr.1.1, password := cr.1.2,
                ipAddress := ip }, none)

/-- `FromString` of the unnamed source file: identical up to the suffix/domain
split, with no hostname field and no IP resolution. -/
def fromStringNR (psl : List Char → Option (List Char)) (url0 : List Char) :
    Option URLnr × Option GoErr :=
  let pr := protoSplit url0
  let ap := pathSplit pr.2
  let cr := credSplit ap.1
  let hp := portSplit cr.2
  match portParse hp.2 with
  | none => (none, some GoErr.atoiErr)
  | some port =>
    let pq := querySplit ap.2
    let qf := fragSplit pq.2
    match psl hp.1 with
    | none => (none, some GoErr.pslErr)
    | some tpo =>
      let ds := domainSplit tpo hp.1
      (some { fullURL := url0, protocol := pr.1, subdomain := ds.2.2,
              domain := ds.2.1, tld := ds.1,
              port := port, path := pq.1, query := queryParse qf.1,
              fragment := qf.2, username := cr.1.1, password := cr.1.2 }, none)

/-- The post-protocol remainder of an input. -/
def protoRest (s : List Char) : List Char := (protoSplit s).2

/-- The authority: the part of the remainder before the first `/`. -/
def authorityOf (s : List Char) : List Char := (pathSplit (protoRest s)).1

/-- The raw path-bearing tail: the remainder from the first `/` on. -/
def rawPathOf (s : List Char) : List Char := (pathSplit (protoRest s)).2

/-- The `(username, password)` pair extracted from the authority. -/
def credsOf (s : List Char) : List Char × List Char :=
  (credSplit (authorityOf s)).1

/-- The reduced authority (`host:port`), after credentials removal. -/
def hostPortOf (s : List Char) : List Char := (credSplit (authorityOf s)).2

/-- The host handed to the public-suffix lookup. -/
def hostOf (s : List Char) : List Char := (portSplit (hostPortOf s)).1

/-- The port text (with its leading `:`, or empty). -/
def portTextOf (s : List Char) : List Char := (portSplit (hostPortOf s)).2

/-- The path field of the result. -/
def pathOf (s : List Char) : List Char := (querySplit (rawPathOf s)).1

/-- The query-and-fragment tail: the path from its first `?` on. -/
def queryTailOf (s : List Char) : List Char := (querySplit (rawPathOf s)).2

/-- The query string: the query tail up to its first `#`. -/
def queryStrOf (s : List Char) : List Char := (fragSplit (queryTailOf s)).1

/-- The fragment of the result. -/
def fragmentOf (s : List Char) : List Char := (fragSplit (queryTailOf s)).2

/-- The record built on the all-stages-succeed path of `fromString`. -/
def resultURL (s : List Char) (port : Int) (tpo ip : List Char) : URL :=
  { fullURL := s, protocol := (protoSplit s).1,
    subdomain := (domainSplit tpo (hostOf s)).2.2,
    hostname := tpo, domain := (domainSplit tpo (hostOf s)).2.1,
    tld := (domainSplit tpo (hostOf s)).1,
    port := port, path := pathOf s, query := queryParse (queryStrOf s),
    fragment := fragmentOf s, username := (credsOf s).1,
    password := (credsOf s).2, ipAddress := ip }

/-- The record built on the success path of `fromStringNR`. -/
def resultURLnr (s : List Char) (port : Int) (tpo : List Char) : URLnr :=
  { fullURL := s, protocol := (protoSplit s).1,
    subdomain := (domainSplit tpo (hostOf s)).2.2,
    domain := (domainSplit tpo (hostOf s)).2.1,
    tld := (domainSplit tpo (hostOf s)).1,
    port := port, path := pathOf s, query := queryParse (queryStrOf s),
    fragment := fragmentOf s, username := (credsOf s).1,
    password := (credsOf s).2 }

/-- The part a query part contributes: `some` exactly when its split on `=`
has exactly two pieces. -/
def pairOf (part : List Char) : Option Query :=
  match splitC '=' part with
  | [k, v] => some ⟨k, v⟩
  | _ => none

/-- A concrete public-suffix lookup used by witnesses and counterexamples:
every host is registered directly under `.com` as `example.com`. -/
def cPsl : List Char → Option (List Char) := fun _ => some ("example.com".toList)

/-- A concrete resolver used by witnesses and counterexamples. -/
def cRes : List Char → Option (List Char) := fun _ => some ("127.0.0.1".toList)

/-- `fromString` laid out as one top-level case split over its three fallible
stages. -/
theorem fromString_eq (psl res : List Char → Option (List Char)) (s : List Char) :
    fromString psl res s =
      match portParse (portTextOf s) with
      | none => (none, some GoErr.atoiErr)
      | some port =>
        match psl (hostOf s) with
        | none => (none, some GoErr.pslErr)
        | some tpo =>
          match res tpo with
          | none => (none, some GoErr.lookupErr)
          | some ip => (some (resultURL s port tpo ip), none) := rfl

/-- `fromStringNR` laid out as one top-level case split over its two fallible
stages. -/
theorem fromStringNR_eq (psl : List Char → Option (List Char)) (s : List Char) :
    fromStringNR psl s =
      match portParse (portTextOf s) with
      | none => (none, some GoErr.atoiErr)
      | some port =>
        match psl (hostOf s) with
        | none => (none, some GoErr.pslErr)
        | some tpo => (some (resultURLnr s port tpo), none) := rfl

/-- `splitC` never returns the empty list of parts. -/
theorem splitC_ne_nil (c : Char) (s : List Char) : splitC c s ≠ [] := by
  cases s with
  | nil => simp [splitC]
  | cons a rest => simp only [splitC]; split <;> simp

/-- Joining the parts of a split restores the original string. -/
theorem joinC_splitC (c : Char) (s : List Char) : joinC c (splitC c s) = s := by
  induction s with
  | nil => rfl
  | cons a rest ih =>
    obtain ⟨h, t, hht⟩ := List.exists_cons_of_ne_nil (splitC_ne_nil c rest)
    by_cases hac : a = c
    · subst hac
      simp only [splitC, if_pos rfl]
      rw [hht] at ih ⊢
      show [] ++ a :: joinC a (h :: t) = a :: rest
      simpa using ih
    · simp only [splitC, if_neg hac]
      rw [hht] at ih ⊢
      simp only [List.headD_cons, List.tail_cons]
      cases t with
      | nil =>
        show a :: h = a :: rest
        simpa [joinC] using ih
      | cons y t' =>
        show (a :: h) ++ c :: joinC c (y :: t') = a :: rest
        have hr : h ++ c :: joinC c (y :: t') = rest := by simpa [joinC] using ih
        simp [← hr]

/-- Splitting distributes over an append across one separator. -/
theorem splitC_append_cons (c : Char) (a b : List Char) :
    splitC c (a ++ c :: b) = splitC c a ++ splitC c b := by
  induction a with
  | nil => simp [splitC]
  | cons x a' ih =>
    obtain ⟨h, t, hht⟩ := List.exists_cons_of_ne_nil (splitC_ne_nil c a')
    by_cases hxc : x = c
    · subst hxc
      simp [splitC, ih]
    · simp only [List.cons_append, splitC, if_neg hxc, List.append_eq, ih, hht,
        List.cons_append, List.headD_cons, List.tail_cons]

/-- No part of a split contains the separator. -/
theorem sep_not_mem_of_mem_splitC (c : Char) (s p : List Char)
    (hp : p ∈ splitC c s) : c ∉ p := by
  induction s generalizing p with
  | nil =>
    simp only [splitC, List.mem_singleton] at hp
    subst hp; simp
  | cons a rest ih =>
    obtain ⟨h, t, hht⟩ := List.exists_cons_of_ne_nil (splitC_ne_nil c rest)
    by_cases hac : a = c
    · subst hac
      simp [splitC, List.mem_cons] at hp
      rcases hp with rfl | hp
      · simp
      · exact ih p hp
    · simp only [splitC, if_neg hac, hht, List.headD_cons, List.tail_cons,
        List.mem_cons] at hp
      rcases hp with rfl | hp
      · intro hc
        rcases List.mem_cons.mp hc with rfl | hc'
        · exact hac rfl
        · exact ih h (by rw [hht]; exact List.mem_cons_self h t) hc'
      · exact ih p (by rw [hht]; exact List.mem_cons_of_mem h hp)

/-- A string without the separator splits into itself alone. -/
theorem splitC_of_not_mem (c : Char) (s : List Char) (h : c ∉ s) :
    splitC c s = [s] := by
  induction s with
  | nil => rfl
  | cons a rest ih =>
    have hac : ¬a = c := fun hx => h (hx ▸ List.mem_cons_self a rest)
    have hr : splitC c rest = [rest] := ih fun hx => h (List.mem_cons_of_mem a hx)
    simp [splitC, if_neg hac, hr]

/-- An empty join comes from no parts or from one empty part. -/
theorem joinC_eq_nil (c : Char) (ts : List (List Char)) (h : joinC c ts = []) :
    ts = [] ∨ ts = [[]] := by
  match ts with
  | [] => exact Or.inl rfl
  | [x] =>
    right
    simp only [joinC] at h
    simp [h]
  | x :: y :: t =>
    exfalso
    simp only [joinC] at h
    rcases List.append_eq_nil.mp h with ⟨-, h2⟩
    exact List.cons_ne_nil _ _ h2

/-- Joining a non-empty tail onto a head inserts one separator. -/
theorem joinC_cons (c : Char) (x : List Char) (ts : List (List Char)) (h : ts ≠ []) :
    joinC c (x :: ts) = x ++ c :: joinC c ts := by
  cases ts with
  | nil => exact absurd rfl h
  | cons y t => rfl

/-- `strings.TrimPrefix` removes a present leading copy of the pattern. -/
theorem dropPre_append (p t : List Char) : dropPre p (p ++ t) = t := by
  rw [dropPre, if_pos, List.drop_left]
  exact List.isPrefixOf_iff_prefix.mpr (List.prefix_append p t)

/-- `strings.TrimSuffix` removes a present trailing copy of the pattern. -/
theorem dropSuf_append (p a : List Char) : dropSuf p (a ++ p) = a := by
  rw [dropSuf, if_pos]
  · rw [List.length_append, Nat.add_sub_cancel, List.take_left]
  · exact List.isSuffixOf_iff_suffix.mpr (List.suffix_append a p)

/-- `strings.TrimSuffix` with a single character does nothing unless that
character is the last one. -/
theorem dropSuf_singleton_of_getLast (c : Char) (l : List Char)
    (h : l.getLast? ≠ some c) : dropSuf [c] l = l := by
  rw [dropSuf, if_neg]
  intro hs
  obtain ⟨t, rfl⟩ := List.isSuffixOf_iff_suffix.mp hs
  exact h (List.getLast?_concat t)

/-- `strings.Index` (as `findIdx`) returns the length when the character is
absent. -/
theorem findIdx_of_not_mem (c : Char) (l : List Char) (h : c ∉ l) :
    l.findIdx (fun x => x = c) = l.length := by
  apply List.findIdx_eq_length_of_false
  intro x hx
  simp only [decide_eq_false_iff_not]
  exact fun hq => h (hq ▸ hx)

/-- Dropping at the first occurrence of a present character exposes it. -/
theorem drop_findIdx_of_mem (c : Char) (l : List Char) (h : c ∈ l) :
    l.drop (l.findIdx (fun x => x = c)) =
      c :: l.drop (l.findIdx (fun x => x = c) + 1) := by
  have hlt : l.findIdx (fun x => x = c) < l.length :=
    List.findIdx_lt_length_of_exists ⟨c, h, by simp⟩
  rw [List.drop_eq_getElem_cons hlt]
  have hc : l[l.findIdx (fun x => x = c)] = c := by
    have := @List.findIdx_getElem _ (fun x => x = c) l hlt
    simpa using this
  rw [hc]

/-- Nothing before the first occurrence satisfies the search. -/
theorem not_mem_take_le_findIdx (c : Char) (l : List Char) (n : Nat)
    (h : n ≤ l.findIdx (fun x => x = c)) : c ∉ l.take n := by
  induction l generalizing n with
  | nil => simp
  | cons a t ih =>
    cases n with
    | zero => simp
    | succ m =>
      rw [List.findIdx_cons] at h
      by_cases hac : a = c
      · simp [hac] at h
      · have hm : m ≤ t.findIdx (fun x => x = c) := by
          simp [hac] at h
          omega
        rw [List.take_succ_cons]
        intro hmem
        rcases List.mem_cons.mp hmem with rfl | hmem'
        · exact hac rfl
        · exact ih m hm hmem'

/-- Without an `@` the credentials stage is skipped. -/
theorem credSplit_of_no_at (a : List Char) (h : '@' ∉ a) :
    credSplit a = (([], []), a) := by
  rw [credSplit]
  have hn : a.findIdx? (fun c => c = '@') = none := by
    rw [List.findIdx?_eq_none_iff]
    intro x hx
    simp only [decide_eq_false_iff_not]
    exact fun hq => h (hq ▸ hx)
  rw [hn]

/-- Without a `:` the whole reduced authority is the host and the port text is
empty. -/
theorem portSplit_of_no_colon (a : List Char) (h : ':' ∉ a) :
    portSplit a = (a, []) := by
  rw [portSplit, findIdx_of_not_mem ':' a h]
  simp

/-- With a `:` present the port text is the `:` and everything after it. -/
theorem portSplit_snd_of_colon (a : List Char) (h : ':' ∈ a) :
    (portSplit a).2 = ':' :: a.drop (a.findIdx (fun x => x = ':') + 1) :=
  drop_findIdx_of_mem ':' a h

/-- The port conversion on a `:`-led port text is `Atoi` on the rest. -/
theorem portParse_cons (t : List Char) : portParse (':' :: t) = goAtoi t := by
  rw [portParse, if_neg (List.cons_ne_nil ':' t)]
  show goAtoi (dropPre [':'] ([':'] ++ t)) = goAtoi t
  rw [dropPre_append]

/-- Without a `#` the whole tail is the query string and the fragment is
empty. -/
theorem fragSplit_of_no_hash (q : List Char) (h : '#' ∉ q) :
    fragSplit q = (q, []) := by
  rw [fragSplit, findIdx_of_not_mem '#' q h]
  simp [dropPre]

/-- With a `#` present the fragment is everything after the first one. -/
theorem fragSplit_of_hash (q : List Char) (h : '#' ∈ q) :
    fragSplit q = (q.take (q.findIdx (fun x => x = '#')),
      q.drop (q.findIdx (fun x => x = '#') + 1)) := by
  rw [fragSplit]
  refine Prod.ext rfl ?_
  show dropPre ['#'] (q.drop (q.findIdx (fun x => x = '#'))) = _
  rw [drop_findIdx_of_mem '#' q h]
  exact dropPre_append ['#'] _

/-- The accumulating loop of the query parse is an order-preserving filter. -/
theorem queryFold_eq_filterMap (l : List (List Char)) (acc : List Query) :
    l.foldl
      (fun acc part =>
        match splitC '=' part with
        | [k, v] => acc ++ [⟨k, v⟩]
        | _ => acc) acc = acc ++ l.filterMap pairOf := by
  induction l generalizing acc with
  | nil => simp
  | cons x t ih =>
    rw [List.foldl_cons, List.filterMap_cons]
    rcases hsp : splitC '=' x with _ | ⟨k, _ | ⟨v, _ | ⟨w, z⟩⟩⟩ <;>
      simp [pairOf, hsp, ih, List.append_assoc]

/-- The query parse keeps, in order, exactly the parts with two pieces. -/
theorem queryParse_eq (q : List Char) :
    queryParse q =
      if q = [] then []
      else (splitC '&' (dropPre ['?'] q)).filterMap pairOf := by
  rw [queryParse]
  split
  · rfl
  · rw [queryFold_eq_filterMap]
    rfl

/-- A successful `fromString` pins every field of the returned record. -/
theorem fromString_ok_elim {psl res : List Char → Option (List Char)}
    {s : List Char} {u : URL} (h : (fromString psl res s).1 = some u) :
    ∃ port tpo ip, portParse (portTextOf s) = some port ∧
      psl (hostOf s) = some tpo ∧ res tpo = some ip ∧
      u = resultURL s port tpo ip := by
  rw [fromString_eq] at h
  split at h
  · exact absurd h (by simp)
  · split at h
    · exact absurd h (by simp)
    · split at h
      · exact absurd h (by simp)
      · simp only [Option.some.injEq] at h
        exact ⟨_, _, _, by assumption, by assumption, by assumption, h.symm⟩

/-- A successful `fromStringNR` pins every field of the returned record. -/
theorem fromStringNR_ok_elim {psl : List Char → Option (List Char)}
    {s : List Char} {u : URLnr} (h : (fromStringNR psl s).1 = some u) :
    ∃ port tpo, portParse (portTextOf s) = some port ∧
      psl (hostOf s) = some tpo ∧ u = resultURLnr s port tpo := by
  rw [fromStringNR_eq] at h
  split at h
  · exact absurd h (by simp)
  · split at h
    · exact absurd h (by simp)
    · simp only [Option.some.injEq] at h
      exact ⟨_, _, by assumption, by assumption, h.symm⟩

/-- The error component of `fromString`, stage by stage. -/
theorem fromString_snd_eq (psl res : List Char → Option (List Char))
    (s : List Char) :
    (fromString psl res s).2 =
      match portParse (portTextOf s) with
      | none => some GoErr.atoiErr
      | some _ =>
        match psl (hostOf s) with
        | none => some GoErr.pslErr
        | some tpo =>
          match res tpo with
          | none => some GoErr.lookupErr
          | some _ => none := by
  rw [fromString_eq]
  split
  · rfl
  · split
    · rfl
    · split <;> rfl

/-- The error component of `fromStringNR`, stage by stage. -/
theorem fromStringNR_snd_eq (psl : List Char → Option (List Char))
    (s : List Char) :
    (fromStringNR psl s).2 =
      match portParse (portTextOf s) with
      | none => some GoErr.atoiErr
      | some _ =>
        match psl (hostOf s) with
        | none => some GoErr.pslErr
        | some _ => none := by
  rw [fromStringNR_eq]
  split
  · rfl
  · split <;> rfl

/-- The first protocol check never fires on a literal `https://` input. -/
theorem http_not_pre_https (t : List Char) :
    List.isPrefixOf ("http://".toList) ("https://".toList ++ t) = false := rfl

/-- The protocol field can only be empty, `http`, or `https`. -/
theorem protoSplit_fst_cases (s : List Char) :
    (protoSplit s).1 = [] ∨ (protoSplit s).1 = "http".toList ∨
      (protoSplit s).1 = "https".toList := by
  rw [protoSplit]
  split
  · split
    · right; right; rfl
    · right; left; rfl
  · split
    · right; right; rfl
    · left; rfl

/-- On a literal `https://` input the second check alone strips one prefix. -/
theorem protoSplit_https (s : List Char)
    (h : List.isPrefixOf ("https://".toList) s = true) :
    protoSplit s = ("https".toList, dropPre ("https://".toList) s) := by
  obtain ⟨t, rfl⟩ := List.isPrefixOf_iff_prefix.mp h
  rw [protoSplit]
  simp only [http_not_pre_https t, Bool.false_eq_true, if_false]
  rw [if_pos (List.isPrefixOf_iff_prefix.mpr (List.prefix_append _ t))]

/-- A dot-free string never ends in a dot. -/
theorem getLast_ne_dot (d : List Char) (hd : '.' ∉ d) :
    d.getLast? ≠ some '.' := by
  intro hg
  obtain ⟨ys, hys⟩ := List.getLast?_eq_some_iff.mp hg
  exact hd (by rw [hys]; exact List.mem_append_right ys (List.mem_singleton.mpr rfl))

/-- A string whose final label is dot-free and non-empty never ends in a
dot. -/
theorem getLast_pre_dot (pre d : List Char) (hne : d ≠ []) (hd : '.' ∉ d) :
    (pre ++ '.' :: d).getLast? ≠ some '.' := by
  intro hg
  have hd2 : d.getLast? ≠ none := by simpa [List.getLast?_eq_none_iff] using hne
  obtain ⟨x, hx⟩ := Option.ne_none_iff_exists'.mp hd2
  rw [List.getLast?_append, show ('.' :: d) = ['.'] ++ d from rfl,
    List.getLast?_append, hx, Option.or_some, Option.or_some,
    Option.some.injEq] at hg
  obtain ⟨ys, hys⟩ := List.getLast?_eq_some_iff.mp hx
  exact hd (by rw [hys, hg]; exact List.mem_append_right ys (List.mem_singleton.mpr rfl))

/-- Last-label and other-labels of a host of the form `pre ++ "." ++ d` with
`d` dot-free. -/
theorem splitC_last_join_pre (pre d : List Char) (hd : '.' ∉ d) :
    (splitC '.' (pre ++ '.' :: d)).getLastD [] = d ∧
    joinC '.' (splitC '.' (pre ++ '.' :: d)).dropLast = pre := by
  rw [splitC_append_cons, splitC_of_not_mem '.' d hd]
  exact ⟨List.getLastD_concat _ _ _, by rw [List.dropLast_concat, joinC_splitC]⟩

/-- Last-label and other-labels of a dot-free host. -/
theorem splitC_last_join_nopre (d : List Char) (hd : '.' ∉ d) :
    (splitC '.' d).getLastD [] = d ∧
    joinC '.' (splitC '.' d).dropLast = [] := by
  rw [splitC_of_not_mem '.' d hd]
  exact ⟨rfl, rfl⟩

/-- When the lookup's answer is a dot-boundary suffix of the host (the
contract of `EffectiveTLDPlusOne`), the suffix/domain split returns: the first
label of the answer as the domain, the other labels as the TLD, and the
host's prefix before the answer as the subdomain. -/
theorem domainSplit_spec (r host : List Char) (hr : r ≠ [])
    (hsuf : host = r ∨ ∃ pre, host = pre ++ '.' :: r) :
    (domainSplit r host).2.1 = (splitC '.' r).headD [] ∧
    (domainSplit r host).1 = joinC '.' (splitC '.' r).tail ∧
    ((domainSplit r host).1 ≠ [] →
      (domainSplit r host).2.1 ++ '.' :: (domainSplit r host).1 = r) ∧
    (((domainSplit r host).2.2 = [] ∧ host = r) ∨
      host = (domainSplit r host).2.2 ++ '.' :: r) := by
  obtain ⟨d, ts, hdts⟩ := List.exists_cons_of_ne_nil (splitC_ne_nil '.' r)
  have hdnd : '.' ∉ d :=
    sep_not_mem_of_mem_splitC '.' r d (by rw [hdts]; exact List.mem_cons_self d ts)
  have hjoin : joinC '.' (d :: ts) = r := by rw [← hdts]; exact joinC_splitC '.' r
  have hfield : (if joinC '.' ts = [] then ([] : List Char) else joinC '.' ts) =
      joinC '.' ts := by
    split
    · rename_i hh; exact hh.symm
    · rfl
  have hds : domainSplit r host =
      (joinC '.' ts,
        (splitC '.' (dropSuf ('.' :: joinC '.' ts) host)).getLastD [],
        joinC '.' (splitC '.' (dropSuf ('.' :: joinC '.' ts) host)).dropLast) := by
    simp only [domainSplit, hdts, List.tail_cons, hfield]
  rw [hds, hdts]
  simp only [List.headD_cons, List.tail_cons]
  by_cases htld : joinC '.' ts = []
  · rcases joinC_eq_nil '.' ts htld with rfl | rfl
    · have hrd : d = r := by simpa [joinC] using hjoin
      have hdne : d ≠ [] := by rw [hrd]; exact hr
      simp only [joinC]
      rcases hsuf with rfl | ⟨pre, rfl⟩
      · rw [← hrd]
        have hA : dropSuf ['.'] d = d :=
          dropSuf_singleton_of_getLast '.' d (getLast_ne_dot d hdnd)
        rw [hA]
        obtain ⟨h1, h2⟩ := splitC_last_join_nopre d hdnd
        exact ⟨h1, trivial, fun hc => absurd rfl hc, Or.inl ⟨h2, rfl⟩⟩
      · rw [← hrd]
        have hA : dropSuf ['.'] (pre ++ '.' :: d) = pre ++ '.' :: d :=
          dropSuf_singleton_of_getLast '.' _ (getLast_pre_dot pre d hdne hdnd)
        rw [hA]
        obtain ⟨h1, h2⟩ := splitC_last_join_pre pre d hdnd
        exact ⟨h1, trivial, fun hc => absurd rfl hc, Or.inr (by rw [h2])⟩
    · have hrd : d ++ ['.'] = r := by simpa [joinC] using hjoin
      subst hrd
      simp only [joinC]
      rcases hsuf with rfl | ⟨pre, rfl⟩
      · rw [dropSuf_append]
        obtain ⟨h1, h2⟩ := splitC_last_join_nopre d hdnd
        exact ⟨h1, trivial, fun hc => absurd rfl hc, Or.inl ⟨h2, rfl⟩⟩
      · have hform : pre ++ '.' :: (d ++ ['.']) = (pre ++ '.' :: d) ++ ['.'] := by
          simp
        rw [hform, dropSuf_append]
        obtain ⟨h1, h2⟩ := splitC_last_join_pre pre d hdnd
        refine ⟨h1, trivial, fun hc => absurd rfl hc, Or.inr ?_⟩
        rw [h2]
        exact hform.symm
  · have hts : ts ≠ [] := by rintro rfl; exact htld rfl
    have hr2 : r = d ++ '.' :: joinC '.' ts := by
      rw [← hjoin, joinC_cons '.' d ts hts]
    rcases hsuf with rfl | ⟨pre, rfl⟩
    · rw [hr2, dropSuf_append]
      obtain ⟨h1, h2⟩ := splitC_last_join_nopre d hdnd
      exact ⟨h1, trivial, fun _ => by rw [h1], Or.inl ⟨h2, rfl⟩⟩
    · have hform : pre ++ '.' :: r = (pre ++ '.' :: d) ++ '.' :: joinC '.' ts := by
        rw [hr2]; simp
      rw [hform, dropSuf_append]
      obtain ⟨h1, h2⟩ := splitC_last_join_pre pre d hdnd
      refine ⟨h1, trivial, fun _ => by rw [h1, ← hr2], Or.inr ?_⟩
      rw [h2]
      exact hform.symm

/-- C1: the non-resolving `FromString` fails exactly under the two conditions
(port text fails integer parsing, public-suffix lookup fails) and the
resolving variant fails exactly under those two plus a failing hostname
resolution; neither has any other failure condition. -/
theorem fromString_failure_conditions :
    ∀ (psl res : List Char → Option (List Char)) (s : List Char),
      ((fromStringNR psl s).2.isSome ↔
        portParse (portTextOf s) = none ∨ psl (hostOf s) = none) ∧
      ((fromString psl res s).2.isSome ↔
        portParse (portTextOf s) = none ∨ psl (hostOf s) = none ∨
          ∃ r, psl (hostOf s) = some r ∧ res r = none) := by
  intro psl res s
  constructor
  · rw [fromStringNR_snd_eq]
    rcases hp : portParse (portTextOf s) with _ | p
    · simp
    · rcases hq : psl (hostOf s) with _ | tpo <;> simp
  · rw [fromString_snd_eq]
    rcases hp : portParse (portTextOf s) with _ | p
    · simp
    · rcases hq : psl (hostOf s) with _ | tpo
      · simp
      · rcases hres : res tpo with _ | ip <;> simp [hres]

/-- C3: the `FullURL` field of a successful parse is the input, verbatim. -/
theorem fromString_fullURL_id :
    ∀ (psl res : List Char → Option (List Char)) (s : List Char) (u : URL),
      (fromString psl res s).1 = some u → u.fullURL = s := by
  intro psl res s u h
  obtain ⟨port, tpo, ip, -, -, -, rfl⟩ := fromString_ok_elim h
  rfl

/-- Witness for C3 at a concrete input. -/
theorem fromString_fullURL_id_w :
    (resultURL ("https://www.example.com/a".toList) 0 ("example.com".toList)
      ("127.0.0.1".toList)).fullURL = "https://www.example.com/a".toList :=
  fromString_fullURL_id cPsl cRes ("https://www.example.com/a".toList) _ (by decide)

/-- C9: `FromString` never pairs an error with a record: the result is either
`(some record, no error)` or `(no record, some error)`. -/
theorem fromString_no_partial_record :
    ∀ (psl res : List Char → Option (List Char)) (s : List Char),
      ((fromString psl res s).1 = none ∧ ∃ e, (fromString psl res s).2 = some e) ∨
      (∃ u, (fromString psl res s).1 = some u ∧ (fromString psl res s).2 = none) := by
  intro psl res s
  rw [fromString_eq]
  rcases hp : portParse (portTextOf s) with _ | p
  · exact Or.inl ⟨rfl, GoErr.atoiErr, rfl⟩
  · rcases hq : psl (hostOf s) with _ | tpo
    · exact Or.inl ⟨rfl, GoErr.pslErr, rfl⟩
    · rcases hres : res tpo with _ | ip
      · exact Or.inl ⟨by simp [hres], GoErr.lookupErr, by simp [hres]⟩
      · exact Or.inr ⟨resultURL s p tpo ip, by simp [hres], by simp [hres]⟩

/-- C7: the query parse splits the query string on `&`, keeps exactly the
parts splitting into exactly two pieces on `=` (in order, duplicates kept;
zero or two-plus separators drop the part), and the fixture query
`a=1&a=2&bad&c=3=3` yields exactly the pairs (a,1), (a,2). -/
theorem query_filter_and_order :
    (∀ q : List Char,
      queryParse q =
        if q = [] then []
        else (splitC '&' (dropPre ['?'] q)).filterMap pairOf) ∧
    Option.map URL.query
        ((fromString cPsl cRes ("example.com/p?a=1&a=2&bad&c=3=3".toList)).1) =
      some [⟨"a".toList, "1".toList⟩, ⟨"a".toList, "2".toList⟩] :=
  ⟨queryParse_eq, by decide⟩

/-- C2: whenever the suffix lookup succeeds with `r` (which, per the
`EffectiveTLDPlusOne` contract, is a non-empty dot-boundary suffix of the
host), the hostname is `r`, the domain is `r`'s first label, the TLD is the
remaining labels dot-joined, `domain ++ "." ++ tld = r` when the TLD is
non-empty, and the subdomain is exactly the host prefix before `r` — so it
never contains the domain or TLD labels. -/
theorem fromString_suffix_split :
    ∀ (psl res : List Char → Option (List Char)) (s : List Char) (u : URL)
      (r : List Char),
      (fromString psl res s).1 = some u →
      psl (hostOf s) = some r →
      r ≠ [] →
      (hostOf s = r ∨ ∃ pre, hostOf s = pre ++ '.' :: r) →
      u.hostname = r ∧
      u.domain = (splitC '.' r).headD [] ∧
      u.tld = joinC '.' (splitC '.' r).tail ∧
      (u.tld ≠ [] → u.domain ++ '.' :: u.tld = r) ∧
      ((u.subdomain = [] ∧ hostOf s = r) ∨
        hostOf s = u.subdomain ++ '.' :: r) := by
  intro psl res s u r h hpsl hr hsuf
  obtain ⟨port, tpo, ip, hp, hq, hres, rfl⟩ := fromString_ok_elim h
  have htpo : tpo = r := by
    rw [hq] at hpsl
    exact Option.some.inj hpsl
  subst htpo
  obtain ⟨h1, h2, h3, h4⟩ := domainSplit_spec tpo (hostOf s) hr hsuf
  exact ⟨rfl, h1, h2, h3, h4⟩

/-- Witness for C2 at `https://www.example.com/` with the lookup answering
`example.com`. -/
theorem fromString_suffix_split_w :
    (resultURL ("https://www.example.com/".toList) 0 ("example.com".toList)
        ("127.0.0.1".toList)).hostname = "example.com".toList ∧
    (resultURL ("https://www.example.com/".toList) 0 ("example.com".toList)
        ("127.0.0.1".toList)).domain =
      (splitC '.' ("example.com".toList)).headD [] ∧
    (resultURL ("https://www.example.com/".toList) 0 ("example.com".toList)
        ("127.0.0.1".toList)).tld =
      joinC '.' (splitC '.' ("example.com".toList)).tail ∧
    ((resultURL ("https://www.example.com/".toList) 0 ("example.com".toList)
        ("127.0.0.1".toList)).tld ≠ [] →
      (resultURL ("https://www.example.com/".toList) 0 ("example.com".toList)
          ("127.0.0.1".toList)).domain ++ '.' ::
        (resultURL ("https://www.example.com/".toList) 0 ("example.com".toList)
          ("127.0.0.1".toList)).tld = "example.com".toList) ∧
    (((resultURL ("https://www.example.com/".toList) 0 ("example.com".toList)
        ("127.0.0.1".toList)).subdomain = [] ∧
        hostOf ("https://www.example.com/".toList) = "example.com".toList) ∨
      hostOf ("https://www.example.com/".toList) =
        (resultURL ("https://www.example.com/".toList) 0 ("example.com".toList)
          ("127.0.0.1".toList)).subdomain ++ '.' :: "example.com".toList) :=
  fromString_suffix_split cPsl cRes ("https://www.example.com/".toList) _
    ("example.com".toList) (by decide) (by decide) (by decide)
    (Or.inr ⟨"www".toList, by decide⟩)

/-- C8: when the first `@` of the post-protocol remainder comes after its
first `/`, the username and password stay empty — the path is cut off before
the credentials are looked for. -/
theorem path_shields_credentials :
    ∀ (psl res : List Char → Option (List Char)) (s : List Char) (u : URL),
      (fromString psl res s).1 = some u →
      '/' ∈ protoRest s →
      (protoRest s).findIdx (fun c => c = '/') <
        (protoRest s).findIdx (fun c => c = '@') →
      u.username = [] ∧ u.password = [] := by
  intro psl res s u h hslash hlt
  obtain ⟨port, tpo, ip, -, -, -, rfl⟩ := fromString_ok_elim h
  have hnot : '@' ∉ authorityOf s :=
    not_mem_take_le_findIdx '@' (protoRest s) _ (Nat.le_of_lt hlt)
  have hcs : credSplit (authorityOf s) = (([], []), authorityOf s) :=
    credSplit_of_no_at _ hnot
  constructor
  · show (credsOf s).1 = []
    rw [credsOf, hcs]
  · show (credsOf s).2 = []
    rw [credsOf, hcs]

/-- Witness for C8 at `example.com/a@b`. -/
theorem path_shields_credentials_w :
    (resultURL ("example.com/a@b".toList) 0 ("example.com".toList)
        ("127.0.0.1".toList)).username = [] ∧
    (resultURL ("example.com/a@b".toList) 0 ("example.com".toList)
        ("127.0.0.1".toList)).password = [] :=
  path_shields_credentials cPsl cRes ("example.com/a@b".toList) _
    (by decide) (by decide) (by decide)

/-- C10: every key and value in the query of a successful parse contains
neither `=` nor `&`. -/
theorem query_pairs_clean :
    ∀ (psl res : List Char → Option (List Char)) (s : List Char) (u : URL)
      (kv : Query),
      (fromString psl res s).1 = some u → kv ∈ u.query →
      '=' ∉ kv.key ∧ '=' ∉ kv.value ∧ '&' ∉ kv.key ∧ '&' ∉ kv.value := by
  intro psl res s u kv h hmem
  obtain ⟨port, tpo, ip, -, -, -, rfl⟩ := fromString_ok_elim h
  have hq : kv ∈ queryParse (queryStrOf s) := hmem
  rw [queryParse_eq] at hq
  by_cases hql : queryStrOf s = []
  · rw [if_pos hql] at hq
    cases hq
  · rw [if_neg hql] at hq
    obtain ⟨part, hpart, hpo⟩ := List.mem_filterMap.mp hq
    have hnoamp : '&' ∉ part :=
      sep_not_mem_of_mem_splitC '&' (dropPre ['?'] (queryStrOf s)) part hpart
    rw [pairOf] at hpo
    rcases hsp : splitC '=' part with _ | ⟨k, _ | ⟨v, _ | ⟨w, z⟩⟩⟩ <;>
        rw [hsp] at hpo
    · exact absurd hpo (by simp)
    · exact absurd hpo (by simp)
    swap
    · exact absurd hpo (by simp)
    have hpo2 : some (⟨k, v⟩ : Query) = some kv := hpo
    have hkv : kv = ⟨k, v⟩ := (Option.some.inj hpo2).symm
    subst hkv
    have hkmem : k ∈ splitC '=' part := by rw [hsp]; exact List.mem_cons_self _ _
    have hvmem : v ∈ splitC '=' part := by
      rw [hsp]; exact List.mem_cons_of_mem _ (List.mem_cons_self _ _)
    have hpartkv : part = k ++ '=' :: v := by
      have := joinC_splitC '=' part
      rw [hsp] at this
      simpa [joinC] using this.symm
    refine ⟨sep_not_mem_of_mem_splitC '=' part k hkmem,
      sep_not_mem_of_mem_splitC '=' part v hvmem, ?_, ?_⟩
    · intro hin
      exact hnoamp (by rw [hpartkv]; exact List.mem_append_left _ hin)
    · intro hin
      exact hnoamp
        (by rw [hpartkv]; exact List.mem_append_right _ (List.mem_cons_of_mem _ hin))

/-- Witness for C10 at `example.com/p?a=1`. -/
theorem query_pairs_clean_w :
    '=' ∉ (Query.mk ("a".toList) ("1".toList)).key ∧
    '=' ∉ (Query.mk ("a".toList) ("1".toList)).value ∧
    '&' ∉ (Query.mk ("a".toList) ("1".toList)).key ∧
    '&' ∉ (Query.mk ("a".toList) ("1".toList)).value :=
  query_pairs_clean cPsl cRes ("example.com/p?a=1".toList)
    (resultURL ("example.com/p?a=1".toList) 0 ("example.com".toList)
      ("127.0.0.1".toList))
    ⟨"a".toList, "1".toList⟩ (by decide) (by decide)

/-- C4 counterexample: on `example.com/a#b` the parse succeeds with an empty
fragment although the input contains `#` and the text after its first `#` is
the non-empty `b` — the `#` is only honoured after a `?`. -/
theorem fragment_whole_input_ctr :
    Option.map URL.fragment
        ((fromString cPsl cRes ("example.com/a#b".toList)).1) = some [] ∧
    '#' ∈ ("example.com/a#b".toList) ∧
    ("example.com/a#b".toList).drop
      ((("example.com/a#b".toList).findIdx (fun x => x = '#')) + 1) =
      "b".toList ∧
    ("b".toList : List Char) ≠ [] := by decide

/-- C4 (amended): the fragment is the text after the first `#` of the
query-and-fragment tail (the portion of the path-bearing tail from its first
`?`), with the `#` stripped, and is empty when that tail has no `#`. -/
theorem fragment_from_query_tail :
    ∀ (psl res : List Char → Option (List Char)) (s : List Char) (u : URL),
      (fromString psl res s).1 = some u →
      ('#' ∈ queryTailOf s →
        u.fragment = (queryTailOf s).drop
          ((queryTailOf s).findIdx (fun x => x = '#') + 1)) ∧
      ('#' ∉ queryTailOf s → u.fragment = []) := by
  intro psl res s u h
  obtain ⟨port, tpo, ip, -, -, -, rfl⟩ := fromString_ok_elim h
  constructor
  · intro hm
    show (fragSplit (queryTailOf s)).2 = _
    rw [fragSplit_of_hash _ hm]
  · intro hm
    show (fragSplit (queryTailOf s)).2 = _
    rw [fragSplit_of_no_hash _ hm]

/-- Witness for the amended C4 at `example.com/p?x#y`. -/
theorem fragment_from_query_tail_w :
    (resultURL ("example.com/p?x#y".toList) 0 ("example.com".toList)
        ("127.0.0.1".toList)).fragment = "y".toList :=
  ((fragment_from_query_tail cPsl cRes ("example.com/p?x#y".toList)
      (resultURL ("example.com/p?x#y".toList) 0 ("example.com".toList)
        ("127.0.0.1".toList)) (by decide)).1 (by decide)).trans (by decide)

/-- C5 counterexample: on `example.com:` the substring after the `:` is
empty, yet the parse fails with the port error — the claim's "non-empty"
qualification does not hold. -/
theorem port_error_empty_text_ctr :
    (fromString cPsl cRes ("example.com:".toList)).2 = some GoErr.atoiErr ∧
    ':' ∈ hostPortOf ("example.com:".toList) ∧
    (hostPortOf ("example.com:".toList)).drop
      ((hostPortOf ("example.com:".toList)).findIdx (fun x => x = ':') + 1) =
      [] := by decide

/-- C5 (amended): the parse fails with the port error exactly when the
reduced authority contains a `:` and the text after the first `:` (possibly
empty) fails `Atoi`; with no `:` the port stays `0` and no port error
occurs. -/
theorem port_error_iff :
    ∀ (psl res : List Char → Option (List Char)) (s : List Char),
      ((fromString psl res s).2 = some GoErr.atoiErr ↔
        ':' ∈ hostPortOf s ∧
          goAtoi ((hostPortOf s).drop
            ((hostPortOf s).findIdx (fun x => x = ':') + 1)) = none) ∧
      (':' ∉ hostPortOf s →
        (fromString psl res s).2 ≠ some GoErr.atoiErr ∧
          ∀ u, (fromString psl res s).1 = some u → u.port = 0) := by
  intro psl res s
  have hpt : portTextOf s = (portSplit (hostPortOf s)).2 := rfl
  have hkey : portParse (portTextOf s) = none ↔
      (':' ∈ hostPortOf s ∧
        goAtoi ((hostPortOf s).drop
          ((hostPortOf s).findIdx (fun x => x = ':') + 1)) = none) := by
    by_cases hm : ':' ∈ hostPortOf s
    · rw [hpt, portSplit_snd_of_colon _ hm, portParse_cons]
      simp [hm]
    · rw [hpt, portSplit_of_no_colon _ hm]
      simp [portParse, hm]
  have hiff : (fromString psl res s).2 = some GoErr.atoiErr ↔
      portParse (portTextOf s) = none := by
    rw [fromString_snd_eq]
    rcases hp : portParse (portTextOf s) with _ | p
    · simp
    · rcases hq : psl (hostOf s) with _ | tpo
      · simp
      · rcases hres : res tpo with _ | ip <;> simp [hres]
  refine ⟨hiff.trans hkey, fun hm => ⟨?_, ?_⟩⟩
  · intro hEq
    exact hm ((hiff.trans hkey).mp hEq).1
  · intro u hu
    obtain ⟨port, tpo, ip, hp, -, -, rfl⟩ := fromString_ok_elim hu
    have hempty : portTextOf s = [] := by
      rw [hpt, portSplit_of_no_colon _ hm]
    rw [hempty] at hp
    have hp2 : some (0 : Int) = some port := hp
    show port = 0
    exact (Option.some.inj hp2).symm

/-- Witness for the amended C5 at `example.com` (no colon). -/
theorem port_error_iff_w :
    (fromString cPsl cRes ("example.com".toList)).2 ≠ some GoErr.atoiErr ∧
    (resultURL ("example.com".toList) 0 ("example.com".toList)
        ("127.0.0.1".toList)).port = 0 :=
  ⟨((port_error_iff cPsl cRes ("example.com".toList)).2 (by decide)).1,
   ((port_error_iff cPsl cRes ("example.com".toList)).2 (by decide)).2
     (resultURL ("example.com".toList) 0 ("example.com".toList)
       ("127.0.0.1".toList)) (by decide)⟩

/-- C6 counterexample: `http://https://example.com` starts with `http://`,
yet the `https://` check fires as well — both prefixes are stripped (the
remainder is `example.com`, not `https://example.com`) and the protocol
field ends as `https`. -/
theorem protocol_double_strip_ctr :
    protoSplit ("http://https://example.com".toList) =
      ("https".toList, "example.com".toList) ∧
    List.isPrefixOf ("http://".toList)
      ("http://https://example.com".toList) = true ∧
    (protoSplit ("http://https://example.com".toList)).2 ≠
      "https://example.com".toList ∧
    Option.map URL.protocol
        ((fromString cPsl cRes ("http://https://example.com".toList)).1) =
      some ("https".toList) := by decide

/-- C6 (amended): the protocol field is always empty, `http`, or `https`;
a literal `https://` input is matched by the second check alone (the
`http://` check cannot match it), but the two checks run in sequence on the
stripped remainder, so `http://https://…` strips both prefixes. -/
theorem protocol_field_cases :
    (∀ (psl res : List Char → Option (List Char)) (s : List Char) (u : URL),
      (fromString psl res s).1 = some u →
      u.protocol = [] ∨ u.protocol = "http".toList ∨
        u.protocol = "https".toList) ∧
    (∀ s : List Char, List.isPrefixOf ("https://".toList) s = true →
      protoSplit s = ("https".toList, dropPre ("https://".toList) s)) := by
  constructor
  · intro psl res s u h
    obtain ⟨port, tpo, ip, -, -, -, rfl⟩ := fromString_ok_elim h
    exact protoSplit_fst_cases s
  · exact protoSplit_https

/-- Witness for the amended C6. -/
theorem protocol_field_cases_w :
    ((resultURL ("http://example.com".toList) 0 ("example.com".toList)
        ("127.0.0.1".toList)).protocol = [] ∨
      (resultURL ("http://example.com".toList) 0 ("example.com".toList)
        ("127.0.0.1".toList)).protocol = "http".toList ∨
      (resultURL ("http://example.com".toList) 0 ("example.com".toList)
        ("127.0.0.1".toList)).protocol = "https".toList) ∧
    protoSplit ("https://example.com".toList) =
      ("https".toList, dropPre ("https://".toList)
        ("https://example.com".toList)) :=
  ⟨protocol_field_cases.1 cPsl cRes ("http://example.com".toList)
      (resultURL ("http://example.com".toList) 0 ("example.com".toList)
        ("127.0.0.1".toList)) (by decide),
   protocol_field_cases.2 ("https://example.com".toList) (by decide)⟩
